import Mathlib

/-!
Verification development for the fontmake build pipeline
(Lib/fontmake/font_project.py).  The Python source is shallowly embedded:

* geometry (affine transforms, contours as point lists with exact integer
  coordinates),
  glyphs, components and fonts model the defcon/fontTools objects the code
  manipulates;
* `deep_copy_contours` / `decompose_glyphs` translate
  `FontProject._deep_copy_contours` / `FontProject.decompose_glyphs`;
* the include-list computation of `FontProject.subset_otf_from_ufo` is
  translated over the same font model;
* the orchestrator (`run_from_ufos`, `build_otfs`, `build_ttfs`,
  `build_interpolatable_ttfs`, `save_otfs`) is embedded as a pure function
  producing a trace of build events over symbolic font states, which records
  exactly the sequencing, reloading, saving, subsetting and autohinting
  behaviour of the Python code.

External collaborators (fontTools pens and transforms, the fontTools
subsetter) are modelled from the spec where noted in doc comments.
-/

namespace Fontmake

/-! ## Geometry: affine transforms and contours -/

/-- Modelled from the spec: the fontTools 2D affine `Transform`, six
coefficients `(xx, xy, yx, yy, dx, dy)`; the 2x2 linear part is
`(xx, xy, yx, yy)`, exactly the slice `transformation[:4]` read by
`_deep_copy_contours`.  Coefficients are exact integers (the transforms in
the scenarios of interest, such as scale (-1, 1), are integral; the sign
and composition reasoning is exact arithmetic either way). -/
structure Transform where
  xx : Int
  xy : Int
  yx : Int
  yy : Int
  dx : Int
  dy : Int
deriving DecidableEq, Repr

/-- The identity transform `Transform()` of fontTools. -/
def Transform.identity : Transform := ⟨1, 0, 0, 1, 0, 0⟩

/-- Modelled from the spec: fontTools `Transform.transform(other)` —
composition as matrix multiplication, where applying the result is applying
`other` first and then `self`. -/
def Transform.compose (self other : Transform) : Transform :=
  ⟨other.xx * self.xx + other.xy * self.yx,
   other.xx * self.xy + other.xy * self.yy,
   other.yx * self.xx + other.yy * self.yx,
   other.yx * self.xy + other.yy * self.yy,
   self.xx * other.dx + self.yx * other.dy + self.dx,
   self.xy * other.dx + self.yy * other.dy + self.dy⟩

/-- Modelled from the spec: fontTools `Transform.transformPoint`, mapping a
point `(x, y)` to `(xx*x + yx*y + dx, xy*x + yy*y + dy)`. -/
def Transform.apply (t : Transform) (p : Int × Int) : Int × Int :=
  (t.xx * p.1 + t.yx * p.2 + t.dx, t.xy * p.1 + t.yy * p.2 + t.dy)

/-- Determinant of the 2x2 linear part, the quantity
`xx * yy - xy * yx` computed at font_project.py line 125. -/
def Transform.det (t : Transform) : Int := t.xx * t.yy - t.xy * t.yx

/-- A scale transform, as produced by `Transform().scale(sx, sy)`. -/
def Transform.scale (sx sy : Int) : Transform := ⟨sx, 0, 0, sy, 0, 0⟩

/-! ## Font model -/

/-- A component reference inside a glyph: a base glyph name plus the affine
transform applied when the base glyph is drawn into the referencing glyph
(defcon `Component`: `nested.baseGlyph`, `nested.transformation`). -/
structure Component where
  baseGlyph : String
  transformation : Transform
deriving DecidableEq, Repr

/-- A glyph: name, contours (each an ordered list of points), component
references, and the per-glyph lib value for the key
`com.schriftgestaltung.Glyphs.Export` (`none` when the key is absent). -/
structure Glyph where
  name : String
  contours : List (List (Int × Int))
  components : List Component
  exportFlag : Option Bool
deriving DecidableEq, Repr

/-- A font: its glyphs, the `public.glyphOrder` list from its lib, and the
`com.schriftgestaltung.Keep Glyphs` lib value (`none` when absent). -/
structure Font where
  glyphs : List Glyph
  glyphOrder : List String
  keepGlyphs : Option (List String)
deriving DecidableEq, Repr

/-- Glyph lookup by name, `ufo[name]` / `name in ufo` on a defcon font. -/
def Font.findGlyph (f : Font) (n : String) : Option Glyph :=
  f.glyphs.find? (fun g => g.name = n)

/-- Replace the glyph with the given name (in-place glyph mutation on a
defcon font: the stored glyph object is updated, order is unchanged). -/
def Font.setGlyph (f : Font) (g : Glyph) : Font :=
  { f with glyphs := f.glyphs.map (fun h => if h.name = g.name then g else h) }

/-! ## Component decomposition (font_project.py lines 101-128) -/

/-- The contours a component glyph contributes when drawn through the pen
stack of `_deep_copy_contours` lines 119-128: a `TransformPen` around the
parent's pen, wrapped in a `ReverseContourPen` when the determinant of the
2x2 linear part of the accumulated transform is negative.
Modelled from the spec: the transform pen maps every point of a drawn
contour through the affine transform, and the reverse pen reverses the
contour's point order during drawing. -/
def drawGlyphContours (t : Transform) (contours : List (List (Int × Int))) :
    List (List (Int × Int)) :=
  contours.map (fun c =>
    let c' := if t.det < 0 then c.reverse else c
    c'.map t.apply)

/-- The loop `for nested in component.components` of `_deep_copy_contours`
lines 114-117: recurse into each referenced base glyph with the accumulated
transform composed with the component's own transform, gathering the
contributed contours in order.  `recur` is the recursion at the next fuel
level; a missing base glyph (`ufo[nested.baseGlyph]` raising `KeyError`)
and fuel exhaustion both yield `none`. -/
def deepCopyComponentsWith
    (recur : Glyph → Transform → Option (List (List (Int × Int))))
    (ufo : Font) :
    List Component → Transform → Option (List (List (Int × Int)))
  | [], _ => some []
  | nested :: rest, transformation =>
    match ufo.findGlyph nested.baseGlyph with
    | none => none
    | some base =>
      match recur base (transformation.compose nested.transformation) with
      | none => none
      | some cs =>
        match deepCopyComponentsWith recur ufo rest transformation with
        | none => none
        | some rest' => some (cs ++ rest')

/-- `FontProject._deep_copy_contours` (lines 111-128): first recurse into all
nested components, then, when the drawn glyph is not the parent itself
(`component != parent`, decided by name since glyph names are unique within
a font), draw the glyph's own contours through the accumulated transform.
The result is the list of contours appended to the parent, in drawing
order.  `fuel` bounds the recursion depth: the Python code recurses
unboundedly on a cyclic component graph, which here exhausts any fuel and
yields `none`. -/
def deep_copy_contours (ufo : Font) (parentName : String) :
    Nat → Glyph → Transform → Option (List (List (Int × Int)))
  | 0, _, _ => none
  | fuel + 1, component, transformation =>
    match deepCopyComponentsWith (deep_copy_contours ufo parentName fuel) ufo
        component.components transformation with
    | none => none
    | some nested =>
      some (nested ++
        (if component.name = parentName then []
         else drawGlyphContours transformation component.contours))

/-- One iteration of the loop in `decompose_glyphs` (lines 107-109):
`self._deep_copy_contours(ufo, glyph, glyph, Transform())` followed by
`glyph.clearComponents()`.  The copied contours are appended to the glyph's
own contours (the parent's pen appends) and the component list is cleared. -/
def decomposeGlyph (ufo : Font) (fuel : Nat) (g : Glyph) : Option Glyph :=
  match deep_copy_contours ufo g.name fuel g Transform.identity with
  | none => none
  | some extra => some { g with contours := g.contours ++ extra, components := [] }

/-- The `for glyph in ufo` loop of `decompose_glyphs` over one font,
processing the glyphs in font order and mutating the font after each glyph
(later glyphs see earlier glyphs already decomposed, as in the Python
in-place mutation). -/
def decomposeGlyphsGo (fuel : Nat) : Font → List String → Option Font
  | f, [] => some f
  | f, n :: rest =>
    match f.findGlyph n with
    | none => none
    | some g =>
      match decomposeGlyph f fuel g with
      | none => none
      | some g' => decomposeGlyphsGo fuel (f.setGlyph g') rest

/-- `decompose_glyphs` applied to one font of the `ufos` list. -/
def decomposeGlyphsFont (fuel : Nat) (ufo : Font) : Option Font :=
  decomposeGlyphsGo fuel ufo (ufo.glyphs.map Glyph.name)

/-- `FontProject.decompose_glyphs` (lines 101-109): move components of the
fonts' glyphs to their outlines, font by font (the `for ufo in ufos`
loop). -/
def decompose_glyphs (fuel : Nat) : List Font → Option (List Font)
  | [] => some []
  | u :: rest =>
    match decomposeGlyphsFont fuel u with
    | none => none
    | some u' =>
      match decompose_glyphs fuel rest with
      | none => none
      | some rest' => some (u' :: rest')

/-! ## Subsetting (font_project.py lines 237-272) -/

/-- The keep-list read at line 240:
`set(ufo.lib.get(GLYPHS_PREFIX + 'Keep Glyphs', []))`, empty when the lib
key is absent. -/
def Font.keepGlyphsList (ufo : Font) : List String := ufo.keepGlyphs.getD []

/-- The skip test of lines 250-252: a glyph is skipped when a non-empty
keep-list exists and the old name is not in it, or when the glyph's
`Glyphs.Export` lib value is falsy (`glyph.lib.get(key, True)` defaults to
`True` when the key is absent, so only a stored `False` skips). -/
def glyphSkipped (ufo : Font) (glyph : Glyph) (old_name : String) : Bool :=
  (!(ufo.keepGlyphsList).isEmpty && !(ufo.keepGlyphsList).contains old_name)
    || (glyph.exportFlag.getD true) == false

/-- The `ufo_order` list of lines 243-245: the public glyph order restricted
to glyph names present in the font. -/
def Font.presentOrder (ufo : Font) : List String :=
  ufo.glyphOrder.filter (fun n => (ufo.findGlyph n).isSome)

/-- The retention test applied to an old (UFO-side) glyph name by the loop
body of lines 249-253: look the glyph up and keep it unless the skip test
fires.  (The lookup cannot fail for names taken from `presentOrder`.) -/
def glyphRetainedB (ufo : Font) (old_name : String) : Bool :=
  match ufo.findGlyph old_name with
  | none => false
  | some glyph => !(glyphSkipped ufo glyph old_name)

/-- The pairing loop of `subset_otf_from_ufo` lines 246-253: zip the
filtered ufo order positionally with the compiled binary's glyph order and
drop the pairs whose glyph fails the keep/export test.  Python's `zip`
stops at the shorter of the two sequences. -/
def subsetPairs (ufo : Font) (binaryOrder : List String) :
    List (String × String) :=
  (List.zip ufo.presentOrder binaryOrder).filter
    (fun pr => glyphRetainedB ufo pr.1)

/-- The `include` list handed to the subsetter: the new (binary-side) names
of the retained pairs, in pairing order. -/
def subsetIncludeList (ufo : Font) (binaryOrder : List String) : List String :=
  (subsetPairs ufo binaryOrder).map Prod.snd

/-- The old (UFO-side) names of the retained pairs, in pairing order. -/
def subsetRetainedOld (ufo : Font) (binaryOrder : List String) : List String :=
  (subsetPairs ufo binaryOrder).map Prod.fst

/-- Modelled from the spec: the fontTools subsetter invoked at lines 255-272
(an external collaborator, configured with `notdef_outline = True`) retains
the notdef glyph in addition to the populated include list — "the notdef
glyph and glyph-name table are always preserved". -/
def subsetterRetainedGlyphs (includeList : List String) : List String :=
  if includeList.contains ".notdef" then includeList
  else ".notdef" :: includeList

/-- The spec's own characterisation of the retained names (sections 4.4 and
8), written from the spec's words: the public glyph order intersected with
the glyphs actually present, minus glyphs excluded by a non-empty
keep-list, minus glyphs whose export flag is false. -/
def specRetainedNames (ufo : Font) : List String :=
  ufo.glyphOrder.filter (fun n =>
    match ufo.findGlyph n with
    | none => false
    | some g =>
      ((ufo.keepGlyphsList).isEmpty || (ufo.keepGlyphsList).contains n)
        && g.exportFlag.getD true)

/-! ## Build orchestrator (font_project.py lines 144-235 and 329-397) -/

/-- Symbolic state of an in-memory defcon font as the orchestrator mutates
it: freshly loaded from a path (`Font(path)`), or the result of one of the
in-place normalisation passes applied to a previous state.  The Bool on
`curvesConverted` is the `compatible` flag of `convert_curves`. -/
inductive FontState
  | loaded : String → FontState
  | decomposed : FontState → FontState
  | overlapsRemoved : FontState → FontState
  | curvesConverted : Bool → FontState → FontState
deriving DecidableEq, Repr

/-- The per-font lib data `save_otfs` reads (lines 213-215 and 224-228):
presence of the `Keep Glyphs` key, the per-glyph `Glyphs.Export` lib
values, and the truthiness of the `Don't use Production Names` lib value.
This data comes from the source on disk and is never changed by the outline
mutations. -/
structure FontFlags where
  hasKeepGlyphs : Bool
  glyphExports : List (Option Bool)
  dontUseProductionNames : Bool
deriving DecidableEq, Repr

/-- An in-memory font as the orchestrator sees it: symbolic outline state
plus the lib flags read by `save_otfs`. -/
structure OFont where
  state : FontState
  flags : FontFlags
deriving DecidableEq, Repr

/-- Observable events of one orchestrator run: font loading (file reads),
the normalisation passes, binary saves, subsetting rewrites and autohint
runs (file writes), and the varLib invocation.  `saveBinaryEv` records the
extension, the `interpolatable` flag of the output path, the saved font's
state, and the `use_production_names` value passed to the compiler. -/
inductive Ev
  | loadFonts : List String → Ev
  | decomposeEv : List FontState → Ev
  | removeOverlapsEv : List FontState → Ev
  | convertCurvesEv : Bool → List FontState → Ev
  | saveBinaryEv : String → Bool → FontState → Bool → Ev
  | subsetEv : FontState → Ev
  | autohintEv : FontState → Ev
  | varLibEv : String → Ev
deriving DecidableEq, Repr

/-- `decompose_glyphs` as the orchestrator observes it: one event, every
font's outline state mutated in place. -/
def decomposeOp (fs : List OFont) : List Ev × List OFont :=
  ([Ev.decomposeEv (fs.map OFont.state)],
   fs.map (fun f => { f with state := FontState.decomposed f.state }))

/-- `remove_overlaps` (lines 89-99) as the orchestrator observes it. -/
def removeOverlapsOp (fs : List OFont) : List Ev × List OFont :=
  ([Ev.removeOverlapsEv (fs.map OFont.state)],
   fs.map (fun f => { f with state := FontState.overlapsRemoved f.state }))

/-- `convert_curves` (lines 130-142) as the orchestrator observes it. -/
def convertCurvesOp (compatible : Bool) (fs : List OFont) :
    List Ev × List OFont :=
  ([Ev.convertCurvesEv compatible (fs.map OFont.state)],
   fs.map (fun f => { f with state := FontState.curvesConverted compatible f.state }))

/-- The `for ufo in ufos` loop of `save_otfs` (lines 208-235), with the
`subset` and `use_production_names` parameters threaded through the loop
exactly as the Python parameter variables are: when such a parameter
arrives as `None` it is assigned from the current font's lib flags
(lines 213-215 derive `use_production_names`, lines 224-228 derive
`subset`), and the assignment persists for the remaining fonts of the same
call.  Returns the emitted events together with the per-font
`(subset, use_production_names)` decisions actually applied. -/
def saveOtfsLoop (ext : String) (ttf interpolatable : Bool)
    (autohint : Option String) :
    Option Bool → Option Bool → List OFont → List Ev × List (Bool × Bool)
  | _, _, [] => ([], [])
  | subset0, upn0, f :: rest =>
    let upn := upn0.getD (!f.flags.dontUseProductionNames)
    let sub := subset0.getD
      (f.flags.hasKeepGlyphs || f.flags.glyphExports.contains (some false))
    let evs :=
      Ev.saveBinaryEv ext interpolatable f.state upn ::
        ((if sub then [Ev.subsetEv f.state] else []) ++
          (if ttf && autohint.isSome then [Ev.autohintEv f.state] else []))
    let tail := saveOtfsLoop ext ttf interpolatable autohint
      (some sub) (some upn) rest
    (evs ++ tail.1, (sub, upn) :: tail.2)

/-- `FontProject.save_otfs` (lines 179-235): the extension comes from the
`ttf` flag (line 204), then the per-font loop runs. -/
def save_otfs (ttf interpolatable : Bool) (autohint : Option String)
    (subset0 upn0 : Option Bool) (ufos : List OFont) : List Ev :=
  (saveOtfsLoop (if ttf then "ttf" else "otf") ttf interpolatable autohint
    subset0 upn0 ufos).1

/-- `FontProject.build_otfs` (lines 144-152): decompose, optionally remove
overlaps, save with CFF outlines.  Returns the events together with the
fonts as mutated in place. -/
def build_otfs (removeOverlaps : Bool) (autohint : Option String)
    (subset0 upn0 : Option Bool) (ufos : List OFont) : List Ev × List OFont :=
  let s1 := decomposeOp ufos
  let s2 := if removeOverlaps then removeOverlapsOp s1.2 else ([], s1.2)
  (s1.1 ++ s2.1 ++ save_otfs false false autohint subset0 upn0 s2.2, s2.2)

/-- `FontProject.build_ttfs` (lines 154-165): optionally remove overlaps,
convert curves independently, save with TrueType outlines. -/
def build_ttfs (removeOverlaps : Bool) (autohint : Option String)
    (subset0 upn0 : Option Bool) (ufos : List OFont) : List Ev × List OFont :=
  let s1 := if removeOverlaps then removeOverlapsOp ufos else ([], ufos)
  let s2 := convertCurvesOp false s1.2
  (s1.1 ++ s2.1 ++ save_otfs true false autohint subset0 upn0 s2.2, s2.2)

/-- `FontProject.build_interpolatable_ttfs` (lines 167-177): convert curves
compatibly across the family, save with TrueType outlines into the
interpolatable output directory. -/
def build_interpolatable_ttfs (autohint : Option String)
    (subset0 upn0 : Option Bool) (ufos : List OFont) : List Ev × List OFont :=
  let s1 := convertCurvesOp true ufos
  (s1.1 ++ save_otfs true true autohint subset0 upn0 s1.2, s1.2)

/-- Python `set(a) == set(b)` for lists of strings. -/
def pySetEq (a b : List String) : Bool :=
  a.all (fun x => b.contains x) && b.all (fun x => a.contains x)

/-- Load one font from disk: `Font(path)`.  `disk` is the environment of
on-disk sources; in-memory mutation never changes it, so reloading a path
always yields the same fresh state and flags. -/
def loadFont (disk : String → FontFlags) (p : String) : OFont :=
  ⟨FontState.loaded p, disk p⟩

/-- `FontProject.run_from_ufos` (lines 329-397), in the case where `ufos`
is a list of UFO paths and `mti_source` is `None`: return immediately when
the requested output formats equal exactly the singleton set of the ufo
format (lines 353-354); raise like the Python `ufos[0]` access when the
path list is empty (line 355); otherwise load the fonts (line 362) and run
the CFF branch, the TrueType branch (reloading fresh fonts first when a
prior branch mutated them), the interpolatable/variable branch (likewise),
and finally the varLib step, which raises a TypeError when `variable` was
requested without a designspace path (lines 394-397).  A raised error
carries the events that happened before it. -/
def run_from_ufos (disk : String → FontFlags) (ufo_paths : List String)
    (output : List String) (designspace_path : Option String)
    (removeOverlaps : Bool) (autohint : Option String)
    (subset0 upn0 : Option Bool) : Except (List Ev × String) (List Ev) :=
  if pySetEq output ["ufo"] then Except.ok []
  else if ufo_paths.isEmpty then
    Except.error ([], "IndexError: list index out of range")
  else
    let ufos0 := ufo_paths.map (loadFont disk)
    let s1 : List Ev × List OFont × Bool :=
      if output.contains "otf" then
        let b := build_otfs removeOverlaps autohint subset0 upn0 ufos0
        ([Ev.loadFonts ufo_paths] ++ b.1, b.2, true)
      else ([Ev.loadFonts ufo_paths], ufos0, false)
    let s2 : List Ev × List OFont × Bool :=
      if output.contains "ttf" then
        let r : List OFont × List Ev :=
          if s1.2.2 then (ufo_paths.map (loadFont disk), [Ev.loadFonts ufo_paths])
          else (s1.2.1, [])
        let b := build_ttfs removeOverlaps autohint subset0 upn0 r.1
        (s1.1 ++ r.2 ++ b.1, b.2, true)
      else s1
    let s3 : List Ev × List OFont × Bool :=
      if output.contains "ttf-interpolatable" || output.contains "variable" then
        let r : List OFont × List Ev :=
          if s2.2.2 then (ufo_paths.map (loadFont disk), [Ev.loadFonts ufo_paths])
          else (s2.2.1, [])
        let b := build_interpolatable_ttfs autohint subset0 upn0 r.1
        (s2.1 ++ r.2 ++ b.1, b.2, true)
      else s2
    if output.contains "variable" then
      match designspace_path with
      | none =>
        Except.error (s3.1, "TypeError: Need designspace to build variable font.")
      | some p => Except.ok (s3.1 ++ [Ev.varLibEv p])
    else Except.ok s3.1

/-- The events a run performed, whether it completed or raised. -/
def runTrace : Except (List Ev × String) (List Ev) → List Ev
  | Except.ok tr => tr
  | Except.error pr => pr.1

/-! ## Helper lemmas -/

lemma Transform.identity_compose (t : Transform) :
    Transform.identity.compose t = t := by
  cases t
  simp [Transform.compose, Transform.identity]

lemma Transform.det_compose (t1 t2 : Transform) :
    (t1.compose t2).det = t1.det * t2.det := by
  cases t1
  cases t2
  simp only [Transform.compose, Transform.det]
  ring

lemma Font.findGlyph_name {f : Font} {n : String} {g : Glyph}
    (h : f.findGlyph n = some g) : g.name = n := by
  have := List.find?_some h
  simpa using this

/-- C1 helper: a glyph drawn at a negative-determinant accumulated
transform contributes its contours with reversed point order, each point
mapped through the transform. -/
lemma drawGlyphContours_neg {t : Transform} (hdet : t.det < 0)
    (cs : List (List (Int × Int))) :
    drawGlyphContours t cs = cs.map (fun c => c.reverse.map t.apply) := by
  simp [drawGlyphContours, hdet]

/-- C1 helper: a glyph drawn at a nonnegative-determinant accumulated
transform contributes its contours in original point order. -/
lemma drawGlyphContours_nonneg {t : Transform} (hdet : ¬ t.det < 0)
    (cs : List (List (Int × Int))) :
    drawGlyphContours t cs = cs.map (fun c => c.map t.apply) := by
  simp [drawGlyphContours, hdet]

/-- The old names of the retained zip pairs are the truncated, filtered ufo
order: pairing stops at the shorter sequence. -/
lemma zip_filter_map_fst (p : String → Bool) :
    ∀ l bo : List String,
    ((List.zip l bo).filter (fun pr => p pr.1)).map Prod.fst =
      (l.take bo.length).filter p := by
  intro l
  induction l with
  | nil => intro bo; simp
  | cons x xs ih =>
    intro bo
    cases bo with
    | nil => simp
    | cons b bs =>
      simp only [List.zip_cons_cons, List.length_cons, List.take_succ_cons,
        List.filter_cons]
      cases h : p x <;> simp [h, ih bs]

/-- The presence-and-retention test, composed, agrees pointwise with the
spec-side predicate of `specRetainedNames`. -/
lemma retain_pointwise (ufo : Font) (n : String) :
    ((ufo.findGlyph n).isSome && glyphRetainedB ufo n) =
      (match ufo.findGlyph n with
       | none => false
       | some g =>
         ((ufo.keepGlyphsList).isEmpty || (ufo.keepGlyphsList).contains n)
           && g.exportFlag.getD true) := by
  cases h : ufo.findGlyph n with
  | none => simp [glyphRetainedB, h]
  | some g =>
    simp only [glyphRetainedB, glyphSkipped, h, Option.isSome_some,
      Bool.true_and]
    cases (ufo.keepGlyphsList).isEmpty <;>
      cases (ufo.keepGlyphsList).contains n <;>
      cases g.exportFlag.getD true <;> rfl

/-- The notdef glyph is in the subsetter's retained set whatever the
include list is. -/
lemma notdef_mem_subsetterRetained (l : List String) :
    ".notdef" ∈ subsetterRetainedGlyphs l := by
  unfold subsetterRetainedGlyphs
  cases h : l.contains ".notdef" with
  | true =>
    simp only [h, if_true]
    exact List.mem_of_elem_eq_true h
  | false => simp [h]

/-! ## Claims -/

/-- C1: during component decomposition the drawn contours' point order is
reversed exactly when the determinant of the 2x2 linear part of the
accumulated transform is negative; the determinant of a composed transform
is the product of the determinants, so this test is correct regardless of
how many negative-determinant transforms were composed along the recursion
path; and for a glyph consisting of a single component reference with a
negative-determinant transform (such as scale (-1, 1)), decomposition
yields exactly the base glyph's contours with reversed point order, each
point mapped through the transform. -/
theorem claim_C1_winding_reversal
    (ufo : Font) (a o : Glyph) (oname : String) (T : Transform) (fuel : Nat)
    (hcomp : a.components = [⟨oname, T⟩])
    (hne : ¬ a.name = oname)
    (ho : ufo.findGlyph oname = some o)
    (hsimple : o.components = [])
    (hdet : T.det < 0)
    (hfuel : 2 ≤ fuel) :
    (∀ t1 t2 : Transform, (t1.compose t2).det = t1.det * t2.det) ∧
    (Transform.scale (-1) 1).det < 0 ∧
    decomposeGlyph ufo fuel a =
      some { a with
        contours := a.contours ++ o.contours.map (fun c => c.reverse.map T.apply),
        components := [] } := by
  refine ⟨Transform.det_compose, by decide, ?_⟩
  obtain ⟨f, rfl⟩ : ∃ f, fuel = f + 2 := ⟨fuel - 2, by omega⟩
  have honame : o.name = oname := Font.findGlyph_name ho
  have hid : Transform.identity.compose T = T := Transform.identity_compose T
  simp only [decomposeGlyph, deep_copy_contours, deepCopyComponentsWith, hcomp,
    ho, hid, hsimple, honame]
  simp [drawGlyphContours_neg hdet]
  intro h
  exact absurd h.symm hne

/-- Witness for C1 at a concrete font: glyph a is a single component
reference to glyph o with transform scale (-1, 1). -/
theorem claim_C1_winding_reversal_witness :
    (((⟨"a", [], [⟨"o", Transform.scale (-1) 1⟩], none⟩ : Glyph)).components =
        [⟨"o", Transform.scale (-1) 1⟩] ∧
      ¬ (⟨"a", [], [⟨"o", Transform.scale (-1) 1⟩], none⟩ : Glyph).name = "o" ∧
      (⟨[⟨"o", [[(0, 0), (10, 0), (10, 10)]], [], none⟩,
         ⟨"a", [], [⟨"o", Transform.scale (-1) 1⟩], none⟩],
        ["o", "a"], none⟩ : Font).findGlyph "o" =
        some ⟨"o", [[(0, 0), (10, 0), (10, 10)]], [], none⟩ ∧
      (Transform.scale (-1) 1).det < 0 ∧ 2 ≤ 5) ∧
    ((∀ t1 t2 : Transform, (t1.compose t2).det = t1.det * t2.det) ∧
      (Transform.scale (-1) 1).det < 0 ∧
      decomposeGlyph
        (⟨[⟨"o", [[(0, 0), (10, 0), (10, 10)]], [], none⟩,
           ⟨"a", [], [⟨"o", Transform.scale (-1) 1⟩], none⟩],
          ["o", "a"], none⟩ : Font) 5
        ⟨"a", [], [⟨"o", Transform.scale (-1) 1⟩], none⟩ =
      some { (⟨"a", [], [⟨"o", Transform.scale (-1) 1⟩], none⟩ : Glyph) with
        contours := (⟨"a", [], [⟨"o", Transform.scale (-1) 1⟩], none⟩ : Glyph).contours ++
          (⟨"o", [[(0, 0), (10, 0), (10, 10)]], [], none⟩ : Glyph).contours.map
            (fun c => c.reverse.map (Transform.scale (-1) 1).apply),
        components := [] }) :=
  ⟨⟨rfl, by decide, by decide, by decide, by decide⟩,
    claim_C1_winding_reversal _ _ _ "o" (Transform.scale (-1) 1) 5
      rfl (by decide) (by decide) rfl (by decide) (by decide)⟩

/-- C2: with the filtered public order and the compiled binary's glyph
order pairing one-to-one (the binary order is at least as long), the old
names retained by `subset_otf_from_ufo` are exactly the public glyph order
intersected with the present glyphs, minus glyphs excluded by a non-empty
keep-list, minus glyphs whose export flag is false; they keep their
original relative order (a sublist of the public glyph order); and the
notdef glyph is always in the subsetter's retained output. -/
theorem claim_C2_subset_retained
    (ufo : Font) (binaryOrder : List String)
    (hlen : ufo.presentOrder.length ≤ binaryOrder.length) :
    subsetRetainedOld ufo binaryOrder = specRetainedNames ufo ∧
    List.Sublist (subsetRetainedOld ufo binaryOrder) ufo.glyphOrder ∧
    ".notdef" ∈ subsetterRetainedGlyphs (subsetIncludeList ufo binaryOrder) := by
  have h1 : subsetRetainedOld ufo binaryOrder =
      ufo.glyphOrder.filter
        (fun n => glyphRetainedB ufo n && (ufo.findGlyph n).isSome) := by
    unfold subsetRetainedOld subsetPairs
    rw [zip_filter_map_fst, List.take_of_length_le hlen]
    unfold Font.presentOrder
    rw [List.filter_filter]
  have h2 : subsetRetainedOld ufo binaryOrder = specRetainedNames ufo := by
    rw [h1]
    unfold specRetainedNames
    refine List.filter_congr (fun n _ => ?_)
    rw [Bool.and_comm]
    exact retain_pointwise ufo n
  refine ⟨h2, ?_, notdef_mem_subsetterRetained _⟩
  rw [h2]
  unfold specRetainedNames
  exact List.filter_sublist _

/-- Witness for C2 at a concrete font with two glyphs, one export-flagged
false, and a binary order at least as long as the filtered public order. -/
theorem claim_C2_subset_retained_witness :
    ((⟨[⟨"A", [], [], none⟩, ⟨"B", [], [], some false⟩],
        ["A", "B"], none⟩ : Font).presentOrder.length ≤
      ([".notdef", "A", "B"] : List String).length) ∧
    (subsetRetainedOld
        ⟨[⟨"A", [], [], none⟩, ⟨"B", [], [], some false⟩], ["A", "B"], none⟩
        [".notdef", "A", "B"] =
      specRetainedNames
        ⟨[⟨"A", [], [], none⟩, ⟨"B", [], [], some false⟩], ["A", "B"], none⟩ ∧
    List.Sublist
      (subsetRetainedOld
        ⟨[⟨"A", [], [], none⟩, ⟨"B", [], [], some false⟩], ["A", "B"], none⟩
        [".notdef", "A", "B"])
      (⟨[⟨"A", [], [], none⟩, ⟨"B", [], [], some false⟩],
        ["A", "B"], none⟩ : Font).glyphOrder ∧
    ".notdef" ∈ subsetterRetainedGlyphs
      (subsetIncludeList
        ⟨[⟨"A", [], [], none⟩, ⟨"B", [], [], some false⟩], ["A", "B"], none⟩
        [".notdef", "A", "B"])) :=
  ⟨by decide, claim_C2_subset_retained _ _ (by decide)⟩

/-- C5: the old-name/new-name pairing of `subset_otf_from_ufo` silently
truncates to the shorter of the filtered ufo order and the compiled
binary's glyph order — the retained old names are computed from the ufo
order truncated to the binary order's length, only the paired glyphs are
considered, and no error is raised (the computation is total and returns
normally on any length mismatch). -/
theorem claim_C5_zip_truncation (ufo : Font) (binaryOrder : List String) :
    subsetRetainedOld ufo binaryOrder =
      (ufo.presentOrder.take binaryOrder.length).filter (glyphRetainedB ufo) ∧
    (subsetPairs ufo binaryOrder).length ≤
      min ufo.presentOrder.length binaryOrder.length := by
  constructor
  · unfold subsetRetainedOld subsetPairs
    exact zip_filter_map_fst _ _ _
  · calc (subsetPairs ufo binaryOrder).length
        ≤ (List.zip ufo.presentOrder binaryOrder).length :=
          List.length_filter_le _ _
      _ = min ufo.presentOrder.length binaryOrder.length :=
          List.length_zip _ _

/-- Once the loop parameters of `save_otfs` are concrete booleans, every
remaining font gets exactly those decisions. -/
lemma saveOtfsLoop_const (ext : String) (ttf interp : Bool)
    (ah : Option String) (s u : Bool) :
    ∀ fonts : List OFont,
    (saveOtfsLoop ext ttf interp ah (some s) (some u) fonts).2 =
      fonts.map (fun _ => (s, u)) := by
  intro fonts
  induction fonts with
  | nil => rfl
  | cons f rest ih => simp [saveOtfsLoop, Option.getD, ih]

/-- C9: when `save_otfs` is called without explicit `subset` and
`use_production_names` arguments, the loop derives both from the FIRST
font's lib flags and the assignment persists: every font of the same call,
in particular every font after the first, is saved with the decisions
derived from the first font's flags — later fonts' own keep-list, export
and production-name flags never influence their own treatment. -/
theorem claim_C9_sticky_save_params (ext : String) (ttf interp : Bool)
    (ah : Option String) (f0 : OFont) (rest : List OFont) :
    (saveOtfsLoop ext ttf interp ah none none (f0 :: rest)).2 =
      (f0 :: rest).map (fun _ =>
        (f0.flags.hasKeepGlyphs || f0.flags.glyphExports.contains (some false),
         !f0.flags.dontUseProductionNames)) := by
  simp [saveOtfsLoop, Option.getD, saveOtfsLoop_const]

/-- Decomposing a glyph keeps its name, clears its components and only
appends to its contours. -/
lemma decomposeGlyph_name_components {f : Font} {fuel : Nat} {g g' : Glyph}
    (h : decomposeGlyph f fuel g = some g') :
    g'.name = g.name ∧ g'.components = [] ∧
      ∃ extra, g'.contours = g.contours ++ extra := by
  unfold decomposeGlyph at h
  cases hd : deep_copy_contours f g.name fuel g Transform.identity with
  | none => rw [hd] at h; cases h
  | some extra =>
    rw [hd] at h
    cases h
    exact ⟨rfl, rfl, extra, rfl⟩

/-- Decomposing a glyph with no components is a no-op: the loop over its
components is empty, and its own contours are not redrawn because the
drawn glyph is the parent itself. -/
lemma decomposeGlyph_simple {f : Font} {g : Glyph} {fuel : Nat}
    (hsimple : g.components = []) (hfuel : 1 ≤ fuel) :
    decomposeGlyph f fuel g = some g := by
  obtain ⟨k, rfl⟩ : ∃ k, fuel = k + 1 := ⟨fuel - 1, by omega⟩
  unfold decomposeGlyph deep_copy_contours
  rw [hsimple]
  cases g
  simp_all [deepCopyComponentsWith]

/-- Replacing a glyph by one with the same name leaves the font's name
sequence unchanged. -/
lemma setGlyph_names (f : Font) (g : Glyph) :
    (f.setGlyph g).glyphs.map Glyph.name = f.glyphs.map Glyph.name := by
  simp only [Font.setGlyph, List.map_map]
  refine List.map_congr_left (fun h _ => ?_)
  by_cases hc : h.name = g.name <;> simp [Function.comp, hc]

/-- With glyph names unique, looking a member glyph up by its name finds
exactly that glyph. -/
lemma find?_name_of_nodup :
    ∀ {l : List Glyph} {g : Glyph},
    (l.map Glyph.name).Nodup → g ∈ l →
    l.find? (fun h => h.name = g.name) = some g := by
  intro l
  induction l with
  | nil => intro g _ hg; cases hg
  | cons a t ih =>
    intro g hnd hg
    rw [List.map_cons, List.nodup_cons] at hnd
    rcases List.mem_cons.mp hg with rfl | hgt
    · exact List.find?_cons_of_pos _ (by simp)
    · have hne : ¬ a.name = g.name := fun hEq =>
        hnd.1 (hEq ▸ List.mem_map_of_mem Glyph.name hgt)
      rw [List.find?_cons_of_neg _ (by simp [hne])]
      exact ih hnd.2 hgt

lemma Font.findGlyph_of_mem {f : Font} {g : Glyph}
    (hnd : (f.glyphs.map Glyph.name).Nodup) (hg : g ∈ f.glyphs) :
    f.findGlyph g.name = some g :=
  find?_name_of_nodup hnd hg

/-- Replacing a glyph whose name differs from the looked-up name does not
change the lookup. -/
lemma setGlyph_findGlyph_ne {f : Font} {g : Glyph} {m : String}
    (hne : ¬ g.name = m) :
    (f.setGlyph g).findGlyph m = f.findGlyph m := by
  unfold Font.setGlyph Font.findGlyph
  simp only
  induction f.glyphs with
  | nil => rfl
  | cons a t ih =>
    rw [List.map_cons]
    by_cases hc : a.name = g.name
    · have ham : ¬ a.name = m := by rw [hc]; exact hne
      rw [if_pos hc, List.find?_cons_of_neg _ (by simp [hne]),
        List.find?_cons_of_neg _ (by simp [ham])]
      exact ih
    · rw [if_neg hc]
      by_cases ham : a.name = m
      · rw [List.find?_cons_of_pos _ (by simp [ham]),
          List.find?_cons_of_pos _ (by simp [ham])]
      · rw [List.find?_cons_of_neg _ (by simp [ham]),
          List.find?_cons_of_neg _ (by simp [ham])]
        exact ih

/-- After replacing the glyph named like `g`, looking that name up finds
`g`, provided some glyph with that name existed. -/
lemma setGlyph_findGlyph_self :
    ∀ {l : List Glyph} {g g₀ : Glyph},
    l.find? (fun h => h.name = g.name) = some g₀ →
    (l.map (fun h => if h.name = g.name then g else h)).find?
        (fun h => h.name = g.name) = some g := by
  intro l
  induction l with
  | nil => intro g g₀ h; cases h
  | cons a t ih =>
    intro g g₀ h
    by_cases hc : a.name = g.name
    · rw [List.map_cons, if_pos hc]
      exact List.find?_cons_of_pos _ (by simp)
    · rw [List.find?_cons_of_neg _ (by simp [hc])] at h
      rw [List.map_cons, if_neg hc, List.find?_cons_of_neg _ (by simp [hc])]
      exact ih h

/-- The decomposition loop over a list of names splits along append. -/
lemma decomposeGo_append (fuel : Nat) :
    ∀ (l1 l2 : List String) (f : Font),
    decomposeGlyphsGo fuel f (l1 ++ l2) =
      (decomposeGlyphsGo fuel f l1).bind
        (fun f1 => decomposeGlyphsGo fuel f1 l2) := by
  intro l1
  induction l1 with
  | nil => intro l2 f; simp [decomposeGlyphsGo]
  | cons n rest ih =>
    intro l2 f
    simp only [List.cons_append, decomposeGlyphsGo]
    split
    · rfl
    · split
      · rfl
      · exact ih l2 _

/-- Processing names other than `g.name` leaves the glyph stored under
`g.name` untouched. -/
lemma decomposeGo_preserves {g : Glyph} (fuel : Nat) :
    ∀ (names : List String) (f f' : Font),
    decomposeGlyphsGo fuel f names = some f' →
    g.name ∉ names →
    f.findGlyph g.name = some g →
    f'.findGlyph g.name = some g := by
  intro names
  induction names with
  | nil =>
    intro f f' h _ hfind
    simp only [decomposeGlyphsGo] at h
    cases h
    exact hfind
  | cons n rest ih =>
    intro f f' h hnot hfind
    simp only [decomposeGlyphsGo] at h
    split at h
    · exact Option.noConfusion h
    next g1 hf =>
      split at h
      · exact Option.noConfusion h
      next g2 hd =>
        have hg1n : g1.name = n := Font.findGlyph_name hf
        have hg2n : g2.name = n :=
          ((decomposeGlyph_name_components hd).1).trans hg1n
        have hne : ¬ g2.name = g.name := by
          rw [hg2n]
          exact fun hEq => hnot (hEq ▸ List.mem_cons_self n rest)
        refine ih _ f' h (fun hm => hnot (List.mem_cons_of_mem n hm)) ?_
        rw [setGlyph_findGlyph_ne hne]
        exact hfind

/-- After the loop has processed every glyph name still carrying
components, all glyphs are component-free. -/
lemma decomposeGo_all_simple (fuel : Nat) :
    ∀ (names : List String) (f f' : Font),
    decomposeGlyphsGo fuel f names = some f' →
    (∀ g ∈ f.glyphs, g.name ∈ names ∨ g.components = []) →
    ∀ g' ∈ f'.glyphs, g'.components = [] := by
  intro names
  induction names with
  | nil =>
    intro f f' h hinv g' hg'
    simp only [decomposeGlyphsGo] at h
    cases h
    rcases hinv g' hg' with hm | hc
    · cases hm
    · exact hc
  | cons n rest ih =>
    intro f f' h hinv
    simp only [decomposeGlyphsGo] at h
    split at h
    · exact Option.noConfusion h
    next g hf =>
      split at h
      · exact Option.noConfusion h
      next g1 hd =>
        refine ih _ f' h ?_
        intro g2 hg2
        rcases List.mem_map.mp hg2 with ⟨orig, horig, heq⟩
        by_cases hco : orig.name = g1.name
        · rw [if_pos hco] at heq
          right
          rw [← heq]
          exact (decomposeGlyph_name_components hd).2.1
        · rw [if_neg hco] at heq
          subst heq
          rcases hinv orig horig with hm | hc
          · rcases List.mem_cons.mp hm with hm1 | hm2
            · exfalso
              apply hco
              rw [hm1, (decomposeGlyph_name_components hd).1,
                Font.findGlyph_name hf]
            · exact Or.inl hm2
          · exact Or.inr hc

/-- C6: after `decompose_glyphs` runs on a list of fonts, every glyph of
every processed font has an empty component list (a glyph that had
components ends with zero components and only contours, its outline having
been extended by the transitively referenced outlines drawn through the
composed transforms by `deep_copy_contours`). -/
theorem claim_C6_decompose_clears_components (fuel : Nat) :
    ∀ (ufos ufos' : List Font),
    decompose_glyphs fuel ufos = some ufos' →
    ∀ ufo' ∈ ufos', ∀ g' ∈ ufo'.glyphs, g'.components = [] := by
  intro ufos
  induction ufos with
  | nil =>
    intro ufos' h
    simp only [decompose_glyphs] at h
    cases h
    intro ufo' h'
    cases h'
  | cons u rest ih =>
    intro ufos' h
    simp only [decompose_glyphs] at h
    split at h
    · exact Option.noConfusion h
    next u' hu =>
      split at h
      · exact Option.noConfusion h
      next rest' hrest =>
        cases h
        intro ufo' hmem
        rcases List.mem_cons.mp hmem with rfl | hmem2
        · refine decomposeGo_all_simple fuel _ u ufo' hu ?_
          exact fun g hg => Or.inl (List.mem_map_of_mem Glyph.name hg)
        · exact ih rest' hrest ufo' hmem2

/-- Witness for C6: a concrete two-glyph font where glyph a references
glyph o through a horizontal flip. -/
theorem claim_C6_decompose_clears_components_witness :
    (decompose_glyphs 5
        [⟨[⟨"o", [[(0, 0), (10, 0), (10, 10)]], [], none⟩,
           ⟨"a", [], [⟨"o", Transform.scale (-1) 1⟩], none⟩],
          ["o", "a"], none⟩] =
      some [⟨[⟨"o", [[(0, 0), (10, 0), (10, 10)]], [], none⟩,
              ⟨"a", [[(-10, 10), (-10, 0), (0, 0)]], [], none⟩],
             ["o", "a"], none⟩]) ∧
    (∀ ufo' ∈ [(⟨[⟨"o", [[(0, 0), (10, 0), (10, 10)]], [], none⟩,
                  ⟨"a", [[(-10, 10), (-10, 0), (0, 0)]], [], none⟩],
                 ["o", "a"], none⟩ : Font)],
      ∀ g' ∈ ufo'.glyphs, g'.components = []) :=
  ⟨by decide,
    claim_C6_decompose_clears_components 5
      [⟨[⟨"o", [[(0, 0), (10, 0), (10, 10)]], [], none⟩,
         ⟨"a", [], [⟨"o", Transform.scale (-1) 1⟩], none⟩],
        ["o", "a"], none⟩]
      [⟨[⟨"o", [[(0, 0), (10, 0), (10, 10)]], [], none⟩,
         ⟨"a", [[(-10, 10), (-10, 0), (0, 0)]], [], none⟩],
        ["o", "a"], none⟩]
      (by decide)⟩

/-- C7: decomposition is a no-op on an already-simple glyph: a glyph with
no components comes out of `decompose_glyphs` unchanged, point for point
(the font's entry under its name is the very same glyph). -/
theorem claim_C7_decompose_noop_on_simple
    (fuel : Nat) (ufo ufo' : Font) (g : Glyph)
    (hnd : (ufo.glyphs.map Glyph.name).Nodup)
    (hg : g ∈ ufo.glyphs)
    (hsimple : g.components = [])
    (hfuel : 1 ≤ fuel)
    (hrun : decomposeGlyphsFont fuel ufo = some ufo') :
    ufo'.findGlyph g.name = some g := by
  unfold decomposeGlyphsFont at hrun
  have hmem : g.name ∈ ufo.glyphs.map Glyph.name :=
    List.mem_map_of_mem Glyph.name hg
  obtain ⟨l1, l2, hsplit⟩ := List.append_of_mem hmem
  rw [hsplit] at hrun
  have hnd' := hsplit ▸ hnd
  have hnotl1 : g.name ∉ l1 := by
    intro hmm
    rcases List.nodup_append.mp hnd' with ⟨_, _, hdisj⟩
    exact hdisj hmm (List.mem_cons_self _ _)
  have hnotl2 : g.name ∉ l2 := by
    rcases List.nodup_append.mp hnd' with ⟨_, hnd2, _⟩
    exact (List.nodup_cons.mp hnd2).1
  rw [decomposeGo_append] at hrun
  cases h1 : decomposeGlyphsGo fuel ufo l1 with
  | none => rw [h1] at hrun; cases hrun
  | some f1 =>
    rw [h1, Option.some_bind] at hrun
    have hfind1 : f1.findGlyph g.name = some g :=
      decomposeGo_preserves fuel l1 ufo f1 h1 hnotl1
        (Font.findGlyph_of_mem hnd hg)
    simp only [decomposeGlyphsGo] at hrun
    split at hrun
    next hf0 =>
      rw [hfind1] at hf0
      exact Option.noConfusion hf0
    next g1 hf0 =>
      rw [hfind1] at hf0
      injection hf0 with hg1
      subst hg1
      split at hrun
      next hd0 =>
        rw [decomposeGlyph_simple hsimple hfuel] at hd0
        exact Option.noConfusion hd0
      next g2 hd0 =>
        rw [decomposeGlyph_simple hsimple hfuel] at hd0
        injection hd0 with hg2
        subst hg2
        refine decomposeGo_preserves fuel l2 _ ufo' hrun hnotl2 ?_
        exact setGlyph_findGlyph_self hfind1

/-- Witness for C7: the simple glyph o of the concrete font is unchanged
by decomposition. -/
theorem claim_C7_decompose_noop_on_simple_witness :
    (((⟨[⟨"o", [[(0, 0), (10, 0), (10, 10)]], [], none⟩,
        ⟨"a", [], [⟨"o", Transform.scale (-1) 1⟩], none⟩],
       ["o", "a"], none⟩ : Font).glyphs.map Glyph.name).Nodup ∧
      (⟨"o", [[(0, 0), (10, 0), (10, 10)]], [], none⟩ : Glyph) ∈
        (⟨[⟨"o", [[(0, 0), (10, 0), (10, 10)]], [], none⟩,
           ⟨"a", [], [⟨"o", Transform.scale (-1) 1⟩], none⟩],
          ["o", "a"], none⟩ : Font).glyphs ∧
      (⟨"o", [[(0, 0), (10, 0), (10, 10)]], [], none⟩ : Glyph).components = [] ∧
      1 ≤ 5 ∧
      decomposeGlyphsFont 5
        ⟨[⟨"o", [[(0, 0), (10, 0), (10, 10)]], [], none⟩,
          ⟨"a", [], [⟨"o", Transform.scale (-1) 1⟩], none⟩],
         ["o", "a"], none⟩ =
        some ⟨[⟨"o", [[(0, 0), (10, 0), (10, 10)]], [], none⟩,
               ⟨"a", [[(-10, 10), (-10, 0), (0, 0)]], [], none⟩],
              ["o", "a"], none⟩) ∧
    (⟨[⟨"o", [[(0, 0), (10, 0), (10, 10)]], [], none⟩,
       ⟨"a", [[(-10, 10), (-10, 0), (0, 0)]], [], none⟩],
      ["o", "a"], none⟩ : Font).findGlyph
        (⟨"o", [[(0, 0), (10, 0), (10, 10)]], [], none⟩ : Glyph).name =
      some ⟨"o", [[(0, 0), (10, 0), (10, 10)]], [], none⟩ :=
  ⟨⟨by decide, by decide, rfl, by decide, by decide⟩,
    claim_C7_decompose_noop_on_simple 5
      ⟨[⟨"o", [[(0, 0), (10, 0), (10, 10)]], [], none⟩,
        ⟨"a", [], [⟨"o", Transform.scale (-1) 1⟩], none⟩],
       ["o", "a"], none⟩
      ⟨[⟨"o", [[(0, 0), (10, 0), (10, 10)]], [], none⟩,
        ⟨"a", [[(-10, 10), (-10, 0), (0, 0)]], [], none⟩],
       ["o", "a"], none⟩
      ⟨"o", [[(0, 0), (10, 0), (10, 10)]], [], none⟩
      (by decide) (by decide) rfl (by decide) (by decide)⟩

/-- Closed form of one orchestrator run: the format branches in fixed order
(CFF, then TrueType, then interpolatable/variable, then the varLib step),
each with its normalisation sequence, with fresh reloads between mutating
branches. -/
lemma run_from_ufos_shape (disk : String → FontFlags) (ufo_paths : List String)
    (output : List String) (designspace_path : Option String)
    (removeOverlaps : Bool) (autohint : Option String)
    (subset0 upn0 : Option Bool) :
    run_from_ufos disk ufo_paths output designspace_path removeOverlaps
      autohint subset0 upn0 =
    (if pySetEq output ["ufo"] then Except.ok []
     else if ufo_paths.isEmpty then
       Except.error ([], "IndexError: list index out of range")
     else
       let L := ufo_paths.map (loadFont disk)
       let dec := L.map (fun f => { f with state := FontState.decomposed f.state })
       let decOv := if removeOverlaps then
           dec.map (fun f => { f with state := FontState.overlapsRemoved f.state })
         else dec
       let ov := if removeOverlaps then
           L.map (fun f => { f with state := FontState.overlapsRemoved f.state })
         else L
       let ttfCv := ov.map
         (fun f => { f with state := FontState.curvesConverted false f.state })
       let interpCv := L.map
         (fun f => { f with state := FontState.curvesConverted true f.state })
       let tr :=
         [Ev.loadFonts ufo_paths]
         ++ (if output.contains "otf" then
               Ev.decomposeEv (L.map OFont.state) ::
                 ((if removeOverlaps then
                     [Ev.removeOverlapsEv (dec.map OFont.state)] else []) ++
                  save_otfs false false autohint subset0 upn0 decOv)
             else [])
         ++ (if output.contains "ttf" then
               (if output.contains "otf" then [Ev.loadFonts ufo_paths] else []) ++
               ((if removeOverlaps then
                   [Ev.removeOverlapsEv (L.map OFont.state)] else []) ++
                (Ev.convertCurvesEv false (ov.map OFont.state) ::
                 save_otfs true false autohint subset0 upn0 ttfCv))
             else [])
         ++ (if output.contains "ttf-interpolatable" || output.contains "variable" then
               (if output.contains "otf" || output.contains "ttf" then
                  [Ev.loadFonts ufo_paths] else []) ++
               (Ev.convertCurvesEv true (L.map OFont.state) ::
                save_otfs true true autohint subset0 upn0 interpCv)
             else [])
       if output.contains "variable" then
         match designspace_path with
         | none =>
           Except.error (tr, "TypeError: Need designspace to build variable font.")
         | some p => Except.ok (tr ++ [Ev.varLibEv p])
       else Except.ok tr) := by
  by_cases hg : pySetEq output ["ufo"]
  · simp [run_from_ufos, hg]
  · by_cases hp : ufo_paths.isEmpty
    · simp [run_from_ufos, hg, hp]
    · by_cases hO : "otf" ∈ output <;>
        by_cases hT : "ttf" ∈ output <;>
        by_cases hI : "ttf-interpolatable" ∈ output <;>
        by_cases hV : "variable" ∈ output <;>
        by_cases hR : removeOverlaps <;>
        cases designspace_path <;>
        simp [run_from_ufos, build_otfs, build_ttfs, build_interpolatable_ttfs,
          decomposeOp, removeOverlapsOp, convertCurvesOp, hg, hp, hO, hT, hI,
          hV, hR, List.append_assoc]

/-- A save event in the `save_otfs` loop trace carries the loop's extension
and interpolatable flag, and the state of one of the fonts of the call. -/
lemma saveOtfsLoop_save_mem (ext : String) (ttf interp : Bool)
    (ah : Option String) {e : String} {i : Bool} {st : FontState} {up : Bool} :
    ∀ (s u : Option Bool) (fonts : List OFont),
    Ev.saveBinaryEv e i st up ∈ (saveOtfsLoop ext ttf interp ah s u fonts).1 →
    e = ext ∧ i = interp ∧ ∃ f ∈ fonts, st = f.state := by
  intro s u fonts
  induction fonts generalizing s u with
  | nil => intro h; simp [saveOtfsLoop] at h
  | cons f rest ih =>
    intro h
    simp only [saveOtfsLoop, List.cons_append, List.mem_cons] at h
    rcases h with heq | h
    · injection heq with h1 h2 h3 h4
      exact ⟨h1, h2, f, List.mem_cons_self f rest, h3⟩
    · rw [List.mem_append, List.mem_append] at h
      rcases h with (hA | hB) | hT
      · split at hA <;> simp at hA
      · split at hB <;> simp at hB
      · obtain ⟨h1, h2, f', hf', h3⟩ := ih _ _ hT
        exact ⟨h1, h2, f', List.mem_cons_of_mem f hf', h3⟩

/-- The `save_otfs` loop never emits a varLib event. -/
lemma varLibEv_notin_saveOtfsLoop (p : String) (ext : String)
    (ttf interp : Bool) (ah : Option String) :
    ∀ (s u : Option Bool) (fonts : List OFont),
    Ev.varLibEv p ∉ (saveOtfsLoop ext ttf interp ah s u fonts).1 := by
  intro s u fonts
  induction fonts generalizing s u with
  | nil => simp [saveOtfsLoop]
  | cons f rest ih =>
    intro h
    simp only [saveOtfsLoop, List.cons_append, List.mem_cons] at h
    rcases h with heq | h
    · exact Ev.noConfusion heq
    · rw [List.mem_append, List.mem_append] at h
      rcases h with (hA | hB) | hT
      · split at hA <;> simp at hA
      · split at hB <;> simp at hB
      · exact ih _ _ hT

lemma varLibEv_notin_save_otfs (p : String) (ttf interp : Bool)
    (ah : Option String) (s u : Option Bool) (fonts : List OFont) :
    Ev.varLibEv p ∉ save_otfs ttf interp ah s u fonts :=
  varLibEv_notin_saveOtfsLoop p _ ttf interp ah s u fonts

/-- A list of output formats containing a non-ufo format is never
set-equal to the singleton ufo format set. -/
lemma pySetEq_ufo_false {output : List String} {s : String}
    (hmem : s ∈ output) (hne : ¬ s = "ufo") :
    pySetEq output ["ufo"] = false := by
  cases hq : pySetEq output ["ufo"] with
  | false => rfl
  | true =>
    exfalso
    unfold pySetEq at hq
    rw [Bool.and_eq_true] at hq
    have h1 := List.all_eq_true.mp hq.1 s hmem
    have h2 : s ∈ ["ufo"] := List.mem_of_elem_eq_true h1
    simp at h2
    exact hne h2

/-- C8: `run_from_ufos` processes the requested formats in the fixed order
CFF, then TrueType, then interpolatable/variable, then the varLib step; the
CFF branch decomposes, then optionally removes overlaps, then saves; the
TrueType branch optionally removes overlaps, then converts curves
independently, then saves (with optional per-font subsetting and, for
TrueType with autohint parameters, autohinting, inside `save_otfs`); the
interpolatable/variable branch converts curves compatibly, then saves; and
mutating branches are separated by fresh reloads.  The equation gives the
complete trace of any run. -/
theorem claim_C8_fixed_format_order (disk : String → FontFlags)
    (ufo_paths : List String) (output : List String)
    (designspace_path : Option String) (removeOverlaps : Bool)
    (autohint : Option String) (subset0 upn0 : Option Bool) :
    run_from_ufos disk ufo_paths output designspace_path removeOverlaps
      autohint subset0 upn0 =
    (if pySetEq output ["ufo"] then Except.ok []
     else if ufo_paths.isEmpty then
       Except.error ([], "IndexError: list index out of range")
     else
       let L := ufo_paths.map (loadFont disk)
       let dec := L.map (fun f => { f with state := FontState.decomposed f.state })
       let decOv := if removeOverlaps then
           dec.map (fun f => { f with state := FontState.overlapsRemoved f.state })
         else dec
       let ov := if removeOverlaps then
           L.map (fun f => { f with state := FontState.overlapsRemoved f.state })
         else L
       let ttfCv := ov.map
         (fun f => { f with state := FontState.curvesConverted false f.state })
       let interpCv := L.map
         (fun f => { f with state := FontState.curvesConverted true f.state })
       let tr :=
         [Ev.loadFonts ufo_paths]
         ++ (if output.contains "otf" then
               Ev.decomposeEv (L.map OFont.state) ::
                 ((if removeOverlaps then
                     [Ev.removeOverlapsEv (dec.map OFont.state)] else []) ++
                  save_otfs false false autohint subset0 upn0 decOv)
             else [])
         ++ (if output.contains "ttf" then
               (if output.contains "otf" then [Ev.loadFonts ufo_paths] else []) ++
               ((if removeOverlaps then
                   [Ev.removeOverlapsEv (L.map OFont.state)] else []) ++
                (Ev.convertCurvesEv false (ov.map OFont.state) ::
                 save_otfs true false autohint subset0 upn0 ttfCv))
             else [])
         ++ (if output.contains "ttf-interpolatable" || output.contains "variable" then
               (if output.contains "otf" || output.contains "ttf" then
                  [Ev.loadFonts ufo_paths] else []) ++
               (Ev.convertCurvesEv true (L.map OFont.state) ::
                save_otfs true true autohint subset0 upn0 interpCv)
             else [])
       if output.contains "variable" then
         match designspace_path with
         | none =>
           Except.error (tr, "TypeError: Need designspace to build variable font.")
         | some p => Except.ok (tr ++ [Ev.varLibEv p])
       else Except.ok tr) :=
  run_from_ufos_shape disk ufo_paths output designspace_path removeOverlaps
    autohint subset0 upn0

/-- C4 counterexample: requesting format variable without a designspace
path on one concrete UFO path.  The TypeError is raised, but only after
file I/O already happened: the trace carried by the error contains the
loading of the source fonts and the saving of the interpolatable TrueType
binary, both of which precede the raise — refuting the claim that the
error is raised before any file I/O occurs. -/
theorem claim_C4_counterexample :
    run_from_ufos (fun _ => ⟨false, [], false⟩) ["a.ufo"] ["variable"] none
        true none none none =
      Except.error
        ([Ev.loadFonts ["a.ufo"],
          Ev.convertCurvesEv true [FontState.loaded "a.ufo"],
          Ev.saveBinaryEv "ttf" true
            (FontState.curvesConverted true (FontState.loaded "a.ufo")) true],
         "TypeError: Need designspace to build variable font.") ∧
    Ev.loadFonts ["a.ufo"] ∈
      runTrace (run_from_ufos (fun _ => ⟨false, [], false⟩) ["a.ufo"]
        ["variable"] none true none none none) ∧
    Ev.saveBinaryEv "ttf" true
        (FontState.curvesConverted true (FontState.loaded "a.ufo")) true ∈
      runTrace (run_from_ufos (fun _ => ⟨false, [], false⟩) ["a.ufo"]
        ["variable"] none true none none none) :=
  ⟨rfl, by decide, by decide⟩

/-- C4 amended: requesting format variable without a designspace path
raises the typed TypeError (reported, not recovered), but only after the
interpolatable-TrueType branch has run — in particular after the font
loads and binary saves that branch performs — and before the variable-font
table construction: the trace carried by the error never contains a varLib
event. -/
theorem claim_C4_variable_needs_designspace (disk : String → FontFlags)
    (ufo_paths : List String) (output : List String) (removeOverlaps : Bool)
    (autohint : Option String) (subset0 upn0 : Option Bool)
    (hvar : "variable" ∈ output)
    (hpaths : ¬ ufo_paths = []) :
    ∃ tr, run_from_ufos disk ufo_paths output none removeOverlaps autohint
        subset0 upn0 =
      Except.error (tr, "TypeError: Need designspace to build variable font.") ∧
      ∀ p, Ev.varLibEv p ∉ tr := by
  have hguard : pySetEq output ["ufo"] = false :=
    pySetEq_ufo_false hvar (by decide)
  have hpe : ufo_paths.isEmpty = false := by
    cases ufo_paths with
    | nil => exact absurd rfl hpaths
    | cons a l => rfl
  have hvc : output.contains "variable" = true :=
    List.elem_eq_true_of_mem hvar
  rw [run_from_ufos_shape, hguard, hpe]
  simp only [Bool.false_eq_true, if_false, hvc, if_true]
  refine ⟨_, rfl, ?_⟩
  intro p hmem
  simp only [List.mem_append, List.mem_cons, List.mem_singleton] at hmem
  rcases hmem with ((h | h) | h) | h
  · rcases h with h | h
    · exact Ev.noConfusion h
    · simp at h
  · split at h
    · rcases List.mem_cons.mp h with h1 | h1
      · exact Ev.noConfusion h1
      · rw [List.mem_append] at h1
        rcases h1 with h2 | h2
        · split at h2 <;> simp at h2
        · exact varLibEv_notin_save_otfs p _ _ _ _ _ _ h2
    · simp at h
  · split at h
    · rw [List.mem_append] at h
      rcases h with h1 | h1
      · split at h1 <;> simp at h1
      · rw [List.mem_append] at h1
        rcases h1 with h2 | h2
        · split at h2 <;> simp at h2
        · rcases List.mem_cons.mp h2 with h3 | h3
          · exact Ev.noConfusion h3
          · exact varLibEv_notin_save_otfs p _ _ _ _ _ _ h3
    · simp at h
  · split at h
    · rw [List.mem_append] at h
      rcases h with h1 | h1
      · split at h1 <;> simp at h1
      · rcases List.mem_cons.mp h1 with h2 | h2
        · exact Ev.noConfusion h2
        · exact varLibEv_notin_save_otfs p _ _ _ _ _ _ h2
    · simp at h

/-- Witness for the amended C4 at a concrete input. -/
theorem claim_C4_variable_needs_designspace_witness :
    ("variable" ∈ (["variable"] : List String) ∧
      ¬ (["a.ufo"] : List String) = []) ∧
    ∃ tr, run_from_ufos (fun _ => ⟨false, [], false⟩) ["a.ufo"] ["variable"]
        none true none none none =
      Except.error (tr, "TypeError: Need designspace to build variable font.") ∧
      ∀ p, Ev.varLibEv p ∉ tr :=
  ⟨⟨by decide, by decide⟩,
    claim_C4_variable_needs_designspace (fun _ => ⟨false, [], false⟩)
      ["a.ufo"] ["variable"] true none none none (by decide) (by decide)⟩

/-- Filtering the ufo entries out of the output list does not change any
other format's membership test. -/
lemma contains_filter_ne (output : List String) (s : String)
    (hs : ¬ s = "ufo") :
    (output.filter (fun t => !(t == "ufo"))).contains s = output.contains s := by
  induction output with
  | nil => rfl
  | cons a rest ih =>
    by_cases ha : a = "ufo"
    · subst ha
      have hsa : ¬ s = "ufo" := hs
      simp only [List.filter_cons, beq_self_eq_true, Bool.not_true,
        Bool.false_eq_true, if_false, List.contains_cons, ih]
      have : (s == "ufo") = false := by simp [hsa]
      rw [this, Bool.false_or]
    · have : (!(a == "ufo")) = true := by simp [ha]
      simp only [List.filter_cons, this, if_true, List.contains_cons, ih]

/-- C10: requesting exactly the ufo output format (Python
`set(output) == set(['ufo'])`) returns immediately with no events — no
normalisation, compilation or file writes; and when the ufo format appears
in the output list alongside any other format, the ufo entry is silently
ignored: the run is identical to the run without the ufo entries. -/
theorem claim_C10_ufo_only_output :
    (∀ (disk : String → FontFlags) (ufo_paths output : List String)
        (designspace_path : Option String) (removeOverlaps : Bool)
        (autohint : Option String) (subset0 upn0 : Option Bool),
      pySetEq output ["ufo"] = true →
      run_from_ufos disk ufo_paths output designspace_path removeOverlaps
        autohint subset0 upn0 = Except.ok []) ∧
    (∀ (disk : String → FontFlags) (ufo_paths output : List String)
        (designspace_path : Option String) (removeOverlaps : Bool)
        (autohint : Option String) (subset0 upn0 : Option Bool) (x : String),
      "ufo" ∈ output → x ∈ output → ¬ x = "ufo" →
      run_from_ufos disk ufo_paths output designspace_path removeOverlaps
        autohint subset0 upn0 =
      run_from_ufos disk ufo_paths (output.filter (fun t => !(t == "ufo")))
        designspace_path removeOverlaps autohint subset0 upn0) := by
  constructor
  · intro disk ufo_paths output ds ro ah s0 u0 h
    simp [run_from_ufos, h]
  · intro disk ufo_paths output ds ro ah s0 u0 x hufo hx hxne
    have hL : pySetEq output ["ufo"] = false := pySetEq_ufo_false hx hxne
    have hR : pySetEq (output.filter (fun t => !(t == "ufo"))) ["ufo"] = false :=
      pySetEq_ufo_false (List.mem_filter.mpr ⟨hx, by simp [hxne]⟩) hxne
    rw [run_from_ufos_shape, run_from_ufos_shape, hL, hR,
      contains_filter_ne output "otf" (by decide),
      contains_filter_ne output "ttf" (by decide),
      contains_filter_ne output "ttf-interpolatable" (by decide),
      contains_filter_ne output "variable" (by decide)]

/-- Witness for C10: the exact-ufo case on a singleton output, and the
mixed case on the output list of ufo plus otf. -/
theorem claim_C10_ufo_only_output_witness :
    (pySetEq ["ufo"] ["ufo"] = true ∧
      run_from_ufos (fun _ => ⟨false, [], false⟩) ["a.ufo"] ["ufo"] none true
        none none none = Except.ok []) ∧
    ("ufo" ∈ (["ufo", "otf"] : List String) ∧
      "otf" ∈ (["ufo", "otf"] : List String) ∧ ¬ "otf" = "ufo" ∧
      run_from_ufos (fun _ => ⟨false, [], false⟩) ["a.ufo"] ["ufo", "otf"]
        none true none none none =
      run_from_ufos (fun _ => ⟨false, [], false⟩) ["a.ufo"]
        ((["ufo", "otf"] : List String).filter (fun t => !(t == "ufo"))) none
        true none none none) :=
  ⟨⟨by decide,
      claim_C10_ufo_only_output.1 (fun _ => ⟨false, [], false⟩) ["a.ufo"]
        ["ufo"] none true none none none (by decide)⟩,
    by decide, by decide, by decide,
    claim_C10_ufo_only_output.2 (fun _ => ⟨false, [], false⟩) ["a.ufo"]
      ["ufo", "otf"] none true none none none "otf" (by decide) (by decide)
      (by decide)⟩

/-- C3: when both the CFF and the TrueType output formats are requested,
the TrueType branch (and likewise the interpolatable branch) operates on
freshly reloaded fonts from the source paths: every TrueType binary saved
is derived from a freshly loaded font by that branch's own normalisation
only — never carrying the CFF branch's in-place decomposition — while
every CFF binary saved is derived from a decomposed (mutated) font. -/
theorem claim_C3_fresh_reload_between_formats (disk : String → FontFlags)
    (ufo_paths : List String) (output : List String)
    (designspace_path : Option String) (removeOverlaps : Bool)
    (autohint : Option String) (subset0 upn0 : Option Bool)
    (hO : output.contains "otf" = true)
    (hT : output.contains "ttf" = true) :
    (∀ (st : FontState) (up : Bool),
      Ev.saveBinaryEv "ttf" false st up ∈
        runTrace (run_from_ufos disk ufo_paths output designspace_path
          removeOverlaps autohint subset0 upn0) →
      ∃ p ∈ ufo_paths, st = FontState.curvesConverted false
        (if removeOverlaps then FontState.overlapsRemoved (FontState.loaded p)
         else FontState.loaded p)) ∧
    (∀ (st : FontState) (up : Bool),
      Ev.saveBinaryEv "ttf" true st up ∈
        runTrace (run_from_ufos disk ufo_paths output designspace_path
          removeOverlaps autohint subset0 upn0) →
      ∃ p ∈ ufo_paths,
        st = FontState.curvesConverted true (FontState.loaded p)) ∧
    (∀ (st : FontState) (up : Bool),
      Ev.saveBinaryEv "otf" false st up ∈
        runTrace (run_from_ufos disk ufo_paths output designspace_path
          removeOverlaps autohint subset0 upn0) →
      ∃ p ∈ ufo_paths, st =
        (if removeOverlaps then
           FontState.overlapsRemoved (FontState.decomposed (FontState.loaded p))
         else FontState.decomposed (FontState.loaded p))) := by
  have hOm : "otf" ∈ output := List.mem_of_elem_eq_true hO
  have hguard : pySetEq output ["ufo"] = false :=
    pySetEq_ufo_false hOm (by decide)
  by_cases hpe : ufo_paths.isEmpty
  · have hrt : runTrace (run_from_ufos disk ufo_paths output designspace_path
        removeOverlaps autohint subset0 upn0) = [] := by
      rw [run_from_ufos_shape, hguard, hpe]
      rfl
    refine ⟨?_, ?_, ?_⟩ <;> intro st up h <;> rw [hrt] at h <;> simp at h
  · have hpe' : ufo_paths.isEmpty = false := Bool.eq_false_iff.mpr hpe
    have key : ∀ (e : String) (i : Bool) (st : FontState) (up : Bool),
        Ev.saveBinaryEv e i st up ∈
          runTrace (run_from_ufos disk ufo_paths output designspace_path
            removeOverlaps autohint subset0 upn0) →
        (let L := ufo_paths.map (loadFont disk)
         let dec := L.map (fun f => { f with state := FontState.decomposed f.state })
         let decOv := if removeOverlaps then
             dec.map (fun f => { f with state := FontState.overlapsRemoved f.state })
           else dec
         let ov := if removeOverlaps then
             L.map (fun f => { f with state := FontState.overlapsRemoved f.state })
           else L
         Ev.saveBinaryEv e i st up ∈
            save_otfs false false autohint subset0 upn0 decOv ∨
         Ev.saveBinaryEv e i st up ∈
            save_otfs true false autohint subset0 upn0
              (ov.map (fun f => { f with state := FontState.curvesConverted false f.state })) ∨
         Ev.saveBinaryEv e i st up ∈
            save_otfs true true autohint subset0 upn0
              (L.map (fun f => { f with state := FontState.curvesConverted true f.state }))) := by
      intro e i st up h
      rw [run_from_ufos_shape, hguard, hpe'] at h
      simp only [Bool.false_eq_true, if_false] at h
      have htr : Ev.saveBinaryEv e i st up ∈
          ([Ev.loadFonts ufo_paths]
           ++ (if output.contains "otf" then
                 Ev.decomposeEv ((ufo_paths.map (loadFont disk)).map OFont.state) ::
                   ((if removeOverlaps then
                       [Ev.removeOverlapsEv
                         (((ufo_paths.map (loadFont disk)).map
                           (fun f => { f with state := FontState.decomposed f.state })).map OFont.state)]
                     else []) ++
                    save_otfs false false autohint subset0 upn0
                      (if removeOverlaps then
                         ((ufo_paths.map (loadFont disk)).map
                           (fun f => { f with state := FontState.decomposed f.state })).map
                             (fun f => { f with state := FontState.overlapsRemoved f.state })
                       else (ufo_paths.map (loadFont disk)).map
                         (fun f => { f with state := FontState.decomposed f.state })))
               else [])
           ++ (if output.contains "ttf" then
                 (if output.contains "otf" then [Ev.loadFonts ufo_paths] else []) ++
                 ((if removeOverlaps then
                     [Ev.removeOverlapsEv ((ufo_paths.map (loadFont disk)).map OFont.state)]
                   else []) ++
                  (Ev.convertCurvesEv false
                     ((if removeOverlaps then
                         (ufo_paths.map (loadFont disk)).map
                           (fun f => { f with state := FontState.overlapsRemoved f.state })
                       else ufo_paths.map (loadFont disk)).map OFont.state) ::
                   save_otfs true false autohint subset0 upn0
                     ((if removeOverlaps then
                         (ufo_paths.map (loadFont disk)).map
                           (fun f => { f with state := FontState.overlapsRemoved f.state })
                       else ufo_paths.map (loadFont disk)).map
                       (fun f => { f with state := FontState.curvesConverted false f.state }))))
               else [])
           ++ (if output.contains "ttf-interpolatable" || output.contains "variable" then
                 (if output.contains "otf" || output.contains "ttf" then
                    [Ev.loadFonts ufo_paths] else []) ++
                 (Ev.convertCurvesEv true ((ufo_paths.map (loadFont disk)).map OFont.state) ::
                  save_otfs true true autohint subset0 upn0
                    ((ufo_paths.map (loadFont disk)).map
                      (fun f => { f with state := FontState.curvesConverted true f.state })))
               else [])) := by
        cases hV : output.contains "variable"
        · rw [hV] at h
          simp only [Bool.false_eq_true, if_false] at h
          exact h
        · rw [hV] at h
          simp only [if_true] at h
          cases designspace_path with
          | none => exact h
          | some p0 =>
            simp only [runTrace] at h
            rw [List.mem_append] at h
            rcases h with h | h
            · exact h
            · simp at h
      clear h
      simp only [List.mem_append, List.mem_cons, List.mem_singleton] at htr
      rcases htr with ((h | h) | h) | h
      · rcases h with h | h
        · exact Ev.noConfusion h
        · simp at h
      · rw [hO] at h
        simp only [if_true] at h
        rcases List.mem_cons.mp h with h1 | h1
        · exact Ev.noConfusion h1
        · rw [List.mem_append] at h1
          rcases h1 with h2 | h2
          · split at h2 <;> simp at h2
          · exact Or.inl h2
      · rw [hT, hO] at h
        simp only [if_true] at h
        rw [List.mem_append] at h
        rcases h with h1 | h1
        · rcases List.mem_cons.mp h1 with h2 | h2
          · exact Ev.noConfusion h2
          · simp at h2
        · rw [List.mem_append] at h1
          rcases h1 with h2 | h2
          · split at h2 <;> simp at h2
          · rcases List.mem_cons.mp h2 with h3 | h3
            · exact Ev.noConfusion h3
            · exact Or.inr (Or.inl h3)
      · split at h
        · rw [List.mem_append] at h
          rcases h with h1 | h1
          · split at h1 <;> simp at h1
          · rcases List.mem_cons.mp h1 with h2 | h2
            · exact Ev.noConfusion h2
            · exact Or.inr (Or.inr h2)
        · simp at h
    refine ⟨?_, ?_, ?_⟩
    · intro st up h
      rcases key "ttf" false st up h with h1 | h1 | h1
      · exact absurd (saveOtfsLoop_save_mem _ _ _ _ _ _ _ h1).1 (by decide)
      · obtain ⟨-, -, f, hf, hst⟩ := saveOtfsLoop_save_mem _ _ _ _ _ _ _ h1
        rw [List.mem_map] at hf
        obtain ⟨f0, hf0, rfl⟩ := hf
        by_cases hro : removeOverlaps
        · rw [if_pos hro] at hf0
          rw [List.mem_map] at hf0
          obtain ⟨f1, hf1, rfl⟩ := hf0
          rw [List.mem_map] at hf1
          obtain ⟨p, hp, rfl⟩ := hf1
          exact ⟨p, hp, by simp [hst, loadFont, hro]⟩
        · rw [if_neg hro] at hf0
          rw [List.mem_map] at hf0
          obtain ⟨p, hp, rfl⟩ := hf0
          exact ⟨p, hp, by simp [hst, loadFont, hro]⟩
      · exact absurd (saveOtfsLoop_save_mem _ _ _ _ _ _ _ h1).2.1 (by decide)
    · intro st up h
      rcases key "ttf" true st up h with h1 | h1 | h1
      · exact absurd (saveOtfsLoop_save_mem _ _ _ _ _ _ _ h1).1 (by decide)
      · exact absurd (saveOtfsLoop_save_mem _ _ _ _ _ _ _ h1).2.1 (by decide)
      · obtain ⟨-, -, f, hf, hst⟩ := saveOtfsLoop_save_mem _ _ _ _ _ _ _ h1
        rw [List.mem_map] at hf
        obtain ⟨f0, hf0, rfl⟩ := hf
        rw [List.mem_map] at hf0
        obtain ⟨p, hp, rfl⟩ := hf0
        exact ⟨p, hp, by simp [hst, loadFont]⟩
    · intro st up h
      rcases key "otf" false st up h with h1 | h1 | h1
      · obtain ⟨-, -, f, hf, hst⟩ := saveOtfsLoop_save_mem _ _ _ _ _ _ _ h1
        by_cases hro : removeOverlaps
        · rw [if_pos hro] at hf
          rw [List.mem_map] at hf
          obtain ⟨f0, hf0, rfl⟩ := hf
          rw [List.mem_map] at hf0
          obtain ⟨f1, hf1, rfl⟩ := hf0
          rw [List.mem_map] at hf1
          obtain ⟨p, hp, rfl⟩ := hf1
          exact ⟨p, hp, by simp [hst, loadFont, hro]⟩
        · rw [if_neg hro] at hf
          rw [List.mem_map] at hf
          obtain ⟨f0, hf0, rfl⟩ := hf
          rw [List.mem_map] at hf0
          obtain ⟨p, hp, rfl⟩ := hf0
          exact ⟨p, hp, by simp [hst, loadFont, hro]⟩
      · exact absurd (saveOtfsLoop_save_mem _ _ _ _ _ _ _ h1).1 (by decide)
      · exact absurd (saveOtfsLoop_save_mem _ _ _ _ _ _ _ h1).1 (by decide)

/-- Witness for C3 at a concrete run requesting both otf and ttf: the ttf
save event in the trace indeed comes from a freshly loaded font. -/
theorem claim_C3_fresh_reload_between_formats_witness :
    ((["otf", "ttf"] : List String).contains "otf" = true ∧
      (["otf", "ttf"] : List String).contains "ttf" = true) ∧
    (∀ (st : FontState) (up : Bool),
      Ev.saveBinaryEv "ttf" false st up ∈
        runTrace (run_from_ufos (fun _ => ⟨false, [], false⟩) ["a.ufo"]
          ["otf", "ttf"] none true none none none) →
      ∃ p ∈ (["a.ufo"] : List String), st = FontState.curvesConverted false
        (if true then FontState.overlapsRemoved (FontState.loaded p)
         else FontState.loaded p)) :=
  ⟨⟨by decide, by decide⟩,
    (claim_C3_fresh_reload_between_formats (fun _ => ⟨false, [], false⟩)
      ["a.ufo"] ["otf", "ttf"] none true none none none
      (by decide) (by decide)).1⟩

end Fontmake
